import Mathlib

set_option maxHeartbeats 1000000

/-!
Verification of the bus-GPS arrival/departure pipeline
(`busgps_arriveinfo` / `busgps_onewaytime` in `transbigdata/busgps.py`).

Timestamps are modelled as whole seconds since a midnight-aligned origin, so
the hour component of a timestamp `t` is `t / 3600 % 24`.  Elapsed-second
values and path positions are modelled as integers.  The external planar
geometry primitives (nearest-point projection, planar distance, corridor
intersection) are taken as parameters of the embedding, matching the spec's
treatment of them as external primitives.
-/

/-! ### Part 1: embedding of `busgps_onewaytime` -/

/-- One row of the `arrive_info` table consumed by `busgps_onewaytime`:
vehicle id, stop name, arrival time and leave (departure) time. -/
structure ArriveRec where
  vid : Nat
  stop : String
  arrivetime : Nat
  leavetime : Nat
deriving DecidableEq, Repr

/-- One row of the intermediate frame `c` built inside `busgps_onewaytime`:
columns `time`, `stopname`, `VehicleId`.  The extra field `tag` records the
provenance of the row (`true` when the row came from the arrival list `a`,
`false` when it came from the departure list `b`); it is a ghost field used
only by the spec-side characterisation and ignored by the sort comparator and
by the code-side filters, which look only at the real columns. -/
structure Ev where
  time : Nat
  stop : String
  vid : Nat
  tag : Bool
deriving DecidableEq, Repr

/-- The sort key of `c.sort_values(by=[VehicleId, 'time'])`: lexicographic
order on (vehicle id, time). -/
def evLe (x y : Ev) : Prop :=
  x.vid < y.vid ∨ (x.vid = y.vid ∧ x.time ≤ y.time)

instance : DecidableRel evLe := fun x y => by
  unfold evLe
  infer_instance

instance : IsTotal Ev evLe := by
  constructor
  intro x y
  rcases Nat.lt_trichotomy x.vid y.vid with h | h | h
  · exact Or.inl (Or.inl h)
  · rcases Nat.le_total x.time y.time with ht | ht
    · exact Or.inl (Or.inr ⟨h, ht⟩)
    · exact Or.inr (Or.inr ⟨h.symm, ht⟩)
  · exact Or.inr (Or.inl h)

instance : IsTrans Ev evLe := by
  constructor
  intro x y z hxy hyz
  rcases hxy with h1 | ⟨h1, h1'⟩
  · rcases hyz with h2 | ⟨h2, _⟩
    · exact Or.inl (h1.trans h2)
    · exact Or.inl (h2 ▸ h1)
  · rcases hyz with h2 | ⟨h2, h2'⟩
    · exact Or.inl (h1 ▸ h2)
    · exact Or.inr ⟨h1.trans h2, h1'.trans h2'⟩

/-- The concatenated tagged event list `c = pd.concat([a, b])` for one
direction: `a` is the arrival times at stop `q` (rows tagged `true`), `b` is
the leave times at stop `p` (rows tagged `false`), in this order. -/
def fwdEvents (ai : List ArriveRec) (p q : String) : List Ev :=
  (ai.filter (fun r => r.stop == q)).map (fun r => ⟨r.arrivetime, r.stop, r.vid, true⟩)
    ++ (ai.filter (fun r => r.stop == p)).map (fun r => ⟨r.leavetime, r.stop, r.vid, false⟩)

/-- Adjacent pairs of a list: models pairing each row of `c` with its
`shift(-1)` successor; the final row (whose shifted values are NaN and hence
fail every equality filter) produces no pair. -/
def pairAdj : List Ev → List (Ev × Ev)
  | x :: y :: rest => (x, y) :: pairAdj (y :: rest)
  | _ => []

/-- One row of the `onewaytime` result. -/
structure OneWayTrip where
  vid : Nat
  direction : String
  startTime : Nat
  endTime : Nat
  durationSeconds : Int
  hourOfDay : Nat
deriving DecidableEq, Repr

/-- The fields computed for an emitted trip: `duration = time1 - time`
(seconds, as an integer), `shour = time.hour`, `direction = p + '-' + q`. -/
def mkTrip (p q : String) (x y : Ev) : OneWayTrip :=
  ⟨x.vid, p ++ "-" ++ q, x.time, y.time, (y.time : Int) - (x.time : Int), x.time / 3600 % 24⟩

/-- The emission step for one direction: keep an adjacent pair exactly when
the vehicle ids agree, the current row's stop is `p` and the next row's stop
is `q` (the code's filter on `c`), and build the trip record. -/
def mkTrips (p q : String) (evs : List Ev) : List OneWayTrip :=
  (pairAdj evs).filterMap (fun pr =>
    if pr.1.vid = pr.2.vid ∧ pr.1.stop = p ∧ pr.2.stop = q then
      some (mkTrip p q pr.1 pr.2)
    else none)

/-- The function `busgps_onewaytime`: build the tagged event stream for each direction,
stable-sort it by (vehicle, time) — pandas' multi-key `sort_values` is a
stable lexicographic sort — pair adjacent rows, filter, and concatenate the
two directions. -/
def busgps_onewaytime (ai : List ArriveRec) (p q : String) : List OneWayTrip :=
  mkTrips p q (List.insertionSort evLe (fwdEvents ai p q))
    ++ mkTrips q p (List.insertionSort evLe (fwdEvents ai q p))

/-- Spec-side emission step, written from the spec's words: a trip is emitted
exactly when the current event is a departure event (tag `false`, i.e. a
departure from the direction's start stop) and the very next event for the
same vehicle is an arrival event (tag `true`, an arrival at the direction's
end stop); `durationSeconds = endTime - startTime`, `hourOfDay` is the hour
component of `startTime`, `direction = "<start>-<end>"`. -/
def specTrips (p q : String) (evs : List Ev) : List OneWayTrip :=
  (pairAdj evs).filterMap (fun pr =>
    if pr.1.vid = pr.2.vid ∧ pr.1.tag = false ∧ pr.2.tag = true then
      some ⟨pr.1.vid, p ++ "-" ++ q, pr.1.time, pr.2.time,
        (pr.2.time : Int) - (pr.1.time : Int), pr.1.time / 3600 % 24⟩
    else none)

/-- Spec-side one-way-time computation: same tagged streams and stable sort,
but with the tag-based emission rule of the spec. -/
def spec_onewaytime (ai : List ArriveRec) (p q : String) : List OneWayTrip :=
  specTrips p q (List.insertionSort evLe (fwdEvents ai p q))
    ++ specTrips q p (List.insertionSort evLe (fwdEvents ai q p))

/-! ### Part 1 lemmas -/

/-- Equality of the sort key (vehicle id, time) of two event rows. -/
def keyEq (x y : Ev) : Prop := x.vid = y.vid ∧ x.time = y.time

theorem evLe_not_keyEq {x y : Ev} (h : ¬ evLe x y) : ¬ keyEq y x := by
  intro hk
  exact h (Or.inr ⟨hk.1.symm, Nat.le_of_eq hk.2.symm⟩)

theorem pairwise_orderedInsert_of {α : Type} {r : α → α → Prop} [DecidableRel r]
    {R : α → α → Prop} (hvac : ∀ x y, ¬ r x y → R y x) (x : α) :
    ∀ l : List α, l.Pairwise R → (∀ y ∈ l, R x y) → (l.orderedInsert r x).Pairwise R := by
  intro l
  induction l with
  | nil =>
    intro _ _
    simp [List.orderedInsert]
  | cons y ys ih =>
    intro hp hx
    rcases List.pairwise_cons.mp hp with ⟨hy, hys⟩
    by_cases h : r x y
    · simp only [List.orderedInsert, if_pos h]
      exact List.Pairwise.cons hx hp
    · simp only [List.orderedInsert, if_neg h]
      refine List.Pairwise.cons ?_ (ih hys (fun z hz => hx z (List.mem_cons_of_mem _ hz)))
      intro z hz
      rcases (List.mem_orderedInsert r).mp hz with heq | hz'
      · rw [heq]
        exact hvac x y h
      · exact hy z hz'

theorem pairwise_insertionSort_of {α : Type} {r : α → α → Prop} [DecidableRel r]
    {R : α → α → Prop} (hvac : ∀ x y, ¬ r x y → R y x) :
    ∀ l : List α, l.Pairwise R → (l.insertionSort r).Pairwise R := by
  intro l
  induction l with
  | nil =>
    intro _
    exact List.Pairwise.nil
  | cons x xs ih =>
    intro hp
    rcases List.pairwise_cons.mp hp with ⟨hx, hxs⟩
    simp only [List.insertionSort]
    refine pairwise_orderedInsert_of hvac x _ (ih hxs) ?_
    intro y hy
    exact hx y ((List.mem_insertionSort r).mp hy)

theorem pairAdj_rel {S : Ev → Ev → Prop} :
    ∀ (evs : List Ev), List.Chain' S evs → ∀ pr ∈ pairAdj evs, S pr.1 pr.2
  | [], _, pr, h => by simp [pairAdj] at h
  | [_], _, pr, h => by simp [pairAdj] at h
  | x :: y :: rest, hc, pr, h => by
    rw [pairAdj] at h
    rcases List.mem_cons.mp h with heq | h'
    · rw [heq]
      exact (List.chain'_cons.mp hc).1
    · exact pairAdj_rel (y :: rest) (List.chain'_cons.mp hc).2 pr h'

theorem pairAdj_mem :
    ∀ (evs : List Ev), ∀ pr ∈ pairAdj evs, pr.1 ∈ evs ∧ pr.2 ∈ evs
  | [], pr, h => by simp [pairAdj] at h
  | [_], pr, h => by simp [pairAdj] at h
  | x :: y :: rest, pr, h => by
    rw [pairAdj] at h
    rcases List.mem_cons.mp h with heq | h'
    · rw [heq]
      exact ⟨List.mem_cons_self _ _, List.mem_cons_of_mem _ (List.mem_cons_self _ _)⟩
    · rcases pairAdj_mem (y :: rest) pr h' with ⟨h1, h2⟩
      exact ⟨List.mem_cons_of_mem _ h1, List.mem_cons_of_mem _ h2⟩

theorem mem_mkTrips {p q : String} {evs : List Ev} {t : OneWayTrip}
    (h : t ∈ mkTrips p q evs) :
    ∃ pr ∈ pairAdj evs,
      (pr.1.vid = pr.2.vid ∧ pr.1.stop = p ∧ pr.2.stop = q) ∧ t = mkTrip p q pr.1 pr.2 := by
  rcases List.mem_filterMap.mp h with ⟨pr, hpr, hsome⟩
  by_cases hc : pr.1.vid = pr.2.vid ∧ pr.1.stop = p ∧ pr.2.stop = q
  · rw [if_pos hc] at hsome
    exact ⟨pr, hpr, hc, (Option.some_injective _ hsome).symm⟩
  · rw [if_neg hc] at hsome
    exact absurd hsome (by simp)

theorem fwdEvents_stop_pairwise (ai : List ArriveRec) (p q : String) (hpq : p ≠ q) :
    (fwdEvents ai p q).Pairwise (fun x y => keyEq x y → ¬(x.stop = p ∧ y.stop = q)) := by
  have harr : ∀ x ∈ (ai.filter (fun r => r.stop == q)).map
      (fun r => (⟨r.arrivetime, r.stop, r.vid, true⟩ : Ev)), x.stop = q := by
    intro x hx
    rcases List.mem_map.mp hx with ⟨r, hr, rfl⟩
    exact (beq_iff_eq.mp (List.mem_filter.mp hr).2 : r.stop = q)
  have hdep : ∀ x ∈ (ai.filter (fun r => r.stop == p)).map
      (fun r => (⟨r.leavetime, r.stop, r.vid, false⟩ : Ev)), x.stop = p := by
    intro x hx
    rcases List.mem_map.mp hx with ⟨r, hr, rfl⟩
    exact (beq_iff_eq.mp (List.mem_filter.mp hr).2 : r.stop = p)
  unfold fwdEvents
  rw [List.pairwise_append]
  refine ⟨?_, ?_, ?_⟩
  · refine List.pairwise_of_forall_mem_list ?_
    intro x hx y _ _ hbad
    exact hpq ((harr x hx).symm.trans hbad.1).symm
  · refine List.pairwise_of_forall_mem_list ?_
    intro x _ y hy _ hbad
    exact hpq ((hbad.2.symm.trans (hdep y hy)).symm)
  · intro x hx y _ _ hbad
    exact hpq ((harr x hx).symm.trans hbad.1).symm

theorem mkTrips_sorted_duration_pos (ai : List ArriveRec) (p q : String) (hpq : p ≠ q) :
    ∀ t ∈ mkTrips p q (List.insertionSort evLe (fwdEvents ai p q)),
      0 < t.durationSeconds ∧ t.startTime < t.endTime := by
  intro t ht
  have hsorted : (List.insertionSort evLe (fwdEvents ai p q)).Chain' evLe :=
    (List.sorted_insertionSort evLe (fwdEvents ai p q)).chain'
  have hkey : (List.insertionSort evLe (fwdEvents ai p q)).Chain'
      (fun x y => keyEq x y → ¬(x.stop = p ∧ y.stop = q)) := by
    refine List.Pairwise.chain' ?_
    refine pairwise_insertionSort_of ?_ _ (fwdEvents_stop_pairwise ai p q hpq)
    intro x y hxy hk
    exact absurd hk (by intro hk'; exact evLe_not_keyEq hxy hk')
  rcases mem_mkTrips ht with ⟨pr, hpr, ⟨hvid, hsp, hsq⟩, rfl⟩
  have hle : evLe pr.1 pr.2 := pairAdj_rel _ hsorted pr hpr
  have hR := pairAdj_rel _ hkey pr hpr
  have htime : pr.1.time < pr.2.time := by
    rcases hle with h | ⟨_, h⟩
    · exact absurd hvid (Nat.ne_of_lt h)
    · rcases Nat.lt_or_ge pr.1.time pr.2.time with h' | h'
      · exact h'
      · have : pr.1.time = pr.2.time := Nat.le_antisymm h (Nat.le_of_lt_succ (Nat.lt_succ_of_le h'))
        exact absurd ⟨hsp, hsq⟩ (hR ⟨hvid, this⟩)
  constructor
  · simp only [mkTrip]
    omega
  · exact htime

theorem mkTrips_cons (p q : String) (x y : Ev) (rest : List Ev) :
    mkTrips p q (x :: y :: rest) =
      (if x.vid = y.vid ∧ x.stop = p ∧ y.stop = q then [mkTrip p q x y] else [])
        ++ mkTrips p q (y :: rest) := by
  by_cases h : x.vid = y.vid ∧ x.stop = p ∧ y.stop = q
  · simp [mkTrips, pairAdj, List.filterMap_cons, h]
  · simp [mkTrips, pairAdj, List.filterMap_cons, h]

theorem mkTrips_startTime_pairwise (p q : String) :
    ∀ (evs : List Ev), evs.Pairwise evLe →
      evs.Chain' (fun x y => keyEq x y → ¬(x.stop = p ∧ y.stop = q)) →
      (mkTrips p q evs).Pairwise (fun t u => t.vid = u.vid → t.startTime < u.startTime)
  | [], _, _ => by simp [mkTrips, pairAdj]
  | [x], _, _ => by simp [mkTrips, pairAdj]
  | x :: y :: rest, hp, hk => by
    have hp' : (y :: rest).Pairwise evLe := (List.pairwise_cons.mp hp).2
    have hk' := (List.chain'_cons.mp hk).2
    have ih := mkTrips_startTime_pairwise p q (y :: rest) hp' hk'
    rw [mkTrips_cons]
    by_cases h : x.vid = y.vid ∧ x.stop = p ∧ y.stop = q
    · rw [if_pos h]
      rw [List.singleton_append]
      refine List.pairwise_cons.mpr ⟨?_, ih⟩
      intro u hu hvid
      rcases mem_mkTrips hu with ⟨pr, hpr, ⟨hvid2, hsp2, hsq2⟩, hueq⟩
      have hmem := (pairAdj_mem _ pr hpr).1
      have hxy : evLe x y := (List.pairwise_cons.mp hp).1 y (List.mem_cons_self _ _)
      have hxylt : x.time < y.time := by
        rcases hxy with h' | ⟨_, h'⟩
        · exact absurd h.1 (Nat.ne_of_lt h')
        · rcases Nat.lt_or_ge x.time y.time with h'' | h''
          · exact h''
          · have heq : x.time = y.time := Nat.le_antisymm h' h''
            exact absurd h.2 ((List.chain'_cons.mp hk).1 ⟨h.1, heq⟩)
      have hx_start : (mkTrip p q x y).startTime = x.time := rfl
      have hu_start : u.startTime = pr.1.time := by rw [hueq]; rfl
      have hu_vid : u.vid = pr.1.vid := by rw [hueq]; rfl
      rw [hx_start, hu_start]
      rcases List.mem_cons.mp hmem with heq | hmem'
      · rw [heq]
        exact hxylt
      · have hyp1 : evLe y pr.1 := (List.pairwise_cons.mp hp').1 pr.1 hmem'
        have hvids : y.vid = pr.1.vid := by
          have : (mkTrip p q x y).vid = x.vid := rfl
          rw [this] at hvid
          rw [hu_vid] at hvid
          omega
        rcases hyp1 with h' | ⟨_, h'⟩
        · exact absurd hvids (Nat.ne_of_lt h')
        · exact Nat.lt_of_lt_of_le hxylt h'
    · rw [if_neg h]
      rw [List.nil_append]
      exact ih

theorem fwdEvents_tag_stop (ai : List ArriveRec) (p q : String) :
    ∀ x ∈ fwdEvents ai p q, (x.tag = true → x.stop = q) ∧ (x.tag = false → x.stop = p) := by
  intro x hx
  rcases List.mem_append.mp hx with h | h
  · rcases List.mem_map.mp h with ⟨r, hr, rfl⟩
    refine ⟨fun _ => ?_, fun hf => by simp at hf⟩
    exact (beq_iff_eq.mp (List.mem_filter.mp hr).2 : r.stop = q)
  · rcases List.mem_map.mp h with ⟨r, hr, rfl⟩
    refine ⟨fun ht => by simp at ht, fun _ => ?_⟩
    exact (beq_iff_eq.mp (List.mem_filter.mp hr).2 : r.stop = p)

theorem mkTrips_eq_specTrips (p q : String) (hpq : p ≠ q) (evs : List Ev)
    (hinv : ∀ x ∈ evs, (x.tag = true → x.stop = q) ∧ (x.tag = false → x.stop = p)) :
    mkTrips p q evs = specTrips p q evs := by
  unfold mkTrips specTrips
  refine List.filterMap_congr ?_
  intro pr hpr
  have h1 := hinv pr.1 (pairAdj_mem _ pr hpr).1
  have h2 := hinv pr.2 (pairAdj_mem _ pr hpr).2
  have hiff : (pr.1.vid = pr.2.vid ∧ pr.1.stop = p ∧ pr.2.stop = q) ↔
      (pr.1.vid = pr.2.vid ∧ pr.1.tag = false ∧ pr.2.tag = true) := by
    constructor
    · rintro ⟨hv, hs1, hs2⟩
      refine ⟨hv, ?_, ?_⟩
      · cases htag : pr.1.tag
        · rfl
        · exact absurd (hs1.symm.trans (h1.1 htag)) hpq
      · cases htag : pr.2.tag
        · exact absurd ((h2.2 htag).symm.trans hs2) hpq
        · rfl
    · rintro ⟨hv, ht1, ht2⟩
      exact ⟨hv, h1.2 ht1, h2.1 ht2⟩
  exact if_congr hiff rfl rfl

/-- C3 helper: the whole two-direction computation agrees with the spec-side
tag-based computation whenever the two stop names differ. -/
theorem onewaytime_eq_spec (ai : List ArriveRec) (p q : String) (hpq : p ≠ q) :
    busgps_onewaytime ai p q = spec_onewaytime ai p q := by
  unfold busgps_onewaytime spec_onewaytime
  have h1 : ∀ x ∈ List.insertionSort evLe (fwdEvents ai p q),
      (x.tag = true → x.stop = q) ∧ (x.tag = false → x.stop = p) := by
    intro x hx
    exact fwdEvents_tag_stop ai p q x ((List.mem_insertionSort evLe).mp hx)
  have h2 : ∀ x ∈ List.insertionSort evLe (fwdEvents ai q p),
      (x.tag = true → x.stop = p) ∧ (x.tag = false → x.stop = q) := by
    intro x hx
    exact fwdEvents_tag_stop ai q p x ((List.mem_insertionSort evLe).mp hx)
  rw [mkTrips_eq_specTrips p q hpq _ h1, mkTrips_eq_specTrips q p (Ne.symm hpq) _ h2]

theorem mkTrips_sorted_startTime_unique (ai : List ArriveRec) (p q : String) (hpq : p ≠ q) :
    (mkTrips p q (List.insertionSort evLe (fwdEvents ai p q))).Pairwise
      (fun t u => t.vid = u.vid → t.startTime ≠ u.startTime) := by
  have h1 : (List.insertionSort evLe (fwdEvents ai p q)).Pairwise evLe :=
    List.sorted_insertionSort evLe _
  have h2 : (List.insertionSort evLe (fwdEvents ai p q)).Chain'
      (fun x y => keyEq x y → ¬(x.stop = p ∧ y.stop = q)) := by
    refine List.Pairwise.chain' ?_
    refine pairwise_insertionSort_of ?_ _ (fwdEvents_stop_pairwise ai p q hpq)
    intro x y hxy hk
    exact absurd hk (by intro hk'; exact evLe_not_keyEq hxy hk')
  exact (mkTrips_startTime_pairwise p q _ h1 h2).imp
    (fun h' hvid => Nat.ne_of_lt (h' hvid))

/-- C1: every OneWayTrip record emitted by `busgps_onewaytime` (in either
direction) has `durationSeconds` strictly greater than 0, for any two distinct
start/end stop names. -/
theorem C1_trip_duration_positive (ai : List ArriveRec) (p q : String) (hpq : p ≠ q) :
    ∀ t ∈ busgps_onewaytime ai p q, 0 < t.durationSeconds := by
  intro t ht
  rcases List.mem_append.mp ht with h | h
  · exact (mkTrips_sorted_duration_pos ai p q hpq t h).1
  · exact (mkTrips_sorted_duration_pos ai q p (Ne.symm hpq) t h).1

/-- C1 witness: the hypothesis `"S" ≠ "E"` holds and the theorem applies to a
concrete arrive_info table. -/
theorem C1_trip_duration_positive_witness :
    ("S" : String) ≠ "E" ∧
      ∀ t ∈ busgps_onewaytime [⟨1, "S", 300, 100⟩, ⟨1, "E", 200, 100⟩] "S" "E",
        0 < t.durationSeconds :=
  ⟨by decide, C1_trip_duration_positive [⟨1, "S", 300, 100⟩, ⟨1, "E", 200, 100⟩] "S" "E" (by decide)⟩

/-- C3: for distinct start/end stop names, the one-way-trip computation agrees
exactly with the spec-side rule: a trip is emitted exactly when the current
event is a departure-from-start and the very next event for the same vehicle in
the restricted sorted stream is an arrival-at-end, with
`durationSeconds = endTime - startTime`, `hourOfDay` the hour component of the
start time, and `direction = "<start>-<end>"`, symmetrically in both directions. -/
theorem C3_adjacency_emission_eq_spec (ai : List ArriveRec) (p q : String) (hpq : p ≠ q) :
    busgps_onewaytime ai p q = spec_onewaytime ai p q :=
  onewaytime_eq_spec ai p q hpq

/-- C3 witness: concrete instantiation of the equivalence. -/
theorem C3_adjacency_emission_eq_spec_witness :
    ("S" : String) ≠ "E" ∧
      busgps_onewaytime [⟨1, "S", 300, 100⟩, ⟨1, "E", 200, 100⟩, ⟨2, "S", 50, 60⟩] "S" "E" =
        spec_onewaytime [⟨1, "S", 300, 100⟩, ⟨1, "E", 200, 100⟩, ⟨2, "S", 50, 60⟩] "S" "E" :=
  ⟨by decide, C3_adjacency_emission_eq_spec [⟨1, "S", 300, 100⟩, ⟨1, "E", 200, 100⟩, ⟨2, "S", 50, 60⟩] "S" "E" (by decide)⟩

/-- C8 counterexample: taking both directions together, a vehicle that departs
the start stop and the end stop at the same timestamp produces two OneWayTrip
records with identical `startTime`, so the claim as stated is false. -/
theorem C8_counterexample :
    ¬ List.Pairwise (fun t u : OneWayTrip => t.vid = u.vid → t.startTime ≠ u.startTime)
      (busgps_onewaytime [⟨1, "S", 300, 100⟩, ⟨1, "E", 200, 100⟩] "S" "E") := by
  decide

/-- C8 amended: within each single direction of the output of
`busgps_onewaytime` (the forward list and the reverse list separately), no two
OneWayTrip records of the same vehicle share an identical `startTime`. -/
theorem C8_startTime_unique_per_direction (ai : List ArriveRec) (p q : String) (hpq : p ≠ q) :
    (mkTrips p q (List.insertionSort evLe (fwdEvents ai p q))).Pairwise
        (fun t u => t.vid = u.vid → t.startTime ≠ u.startTime) ∧
      (mkTrips q p (List.insertionSort evLe (fwdEvents ai q p))).Pairwise
        (fun t u => t.vid = u.vid → t.startTime ≠ u.startTime) :=
  ⟨mkTrips_sorted_startTime_unique ai p q hpq,
    mkTrips_sorted_startTime_unique ai q p (Ne.symm hpq)⟩

/-- C8 witness: concrete instantiation of the amended claim. -/
theorem C8_startTime_unique_per_direction_witness :
    ("S" : String) ≠ "E" ∧
      ((mkTrips "S" "E" (List.insertionSort evLe
          (fwdEvents [⟨1, "S", 300, 100⟩, ⟨1, "E", 200, 100⟩] "S" "E"))).Pairwise
        (fun t u => t.vid = u.vid → t.startTime ≠ u.startTime) ∧
      (mkTrips "E" "S" (List.insertionSort evLe
          (fwdEvents [⟨1, "S", 300, 100⟩, ⟨1, "E", 200, 100⟩] "E" "S"))).Pairwise
        (fun t u => t.vid = u.vid → t.startTime ≠ u.startTime)) :=
  ⟨by decide, C8_startTime_unique_per_direction [⟨1, "S", 300, 100⟩, ⟨1, "E", 200, 100⟩] "S" "E" (by decide)⟩

/-! ### Part 2: embedding of the dwell-merge step of `busgps_arriveinfo`
(lines 184-212 of `busgps.py`) -/

/-- One row of the tagged event frame `c` built in the merge step of
`busgps_arriveinfo`: an elapsed-seconds time and a flag (`true` encodes the
flag value 1, a raw arrival; `false` encodes 0, a raw departure). -/
structure TEv where
  time : Nat
  flag : Bool
deriving DecidableEq, Repr

/-- Column `flag_1`: a row is marked iff the gap from its time to the next row's time
is less than `mintime` and its flag is 0 (a departure).  The final row's
shifted time is NaN and a NaN comparison is false, so the final row is never
marked. -/
def flag1 (g : Int) : List TEv → List Bool
  | x :: y :: rest =>
      ((decide ((y.time : Int) - (x.time : Int) < g)) && (x.flag == false)) :: flag1 g (y :: rest)
  | [_] => [false]
  | [] => []

/-- Column `flag_2 = flag_1.shift().fillna(False)`. -/
def flag2 (g : Int) (c : List TEv) : List Bool :=
  false :: (flag1 g c).dropLast

/-- Column `flag_3 = flag_1 | flag_2`. -/
def flag3 (g : Int) (c : List TEv) : List Bool :=
  List.zipWith (fun a b => a || b) (flag1 g c) (flag2 g c)

/-- Row selection `c = c[-c['flag_3']]`: keep the rows whose `flag_3` is false. -/
def keepEvents (g : Int) (c : List TEv) : List TEv :=
  ((c.zip (flag3 g c)).filter (fun pr => !pr.2)).map (fun pr => pr.1)

/-- Build `arrive_new`: the surviving flag-1 times become `arrivetime` and the
surviving flag-0 times are assigned positionally as `leavetime`.  The pandas
assignment `arrive_new['leavetime'] = list(...)` raises when the two sides
have different lengths, so the result is an `Option`. -/
def pairEvents (kept : List TEv) : Option (List (Nat × Nat)) :=
  let arr := (kept.filter (fun x => x.flag == true)).map (fun x => x.time)
  let dep := (kept.filter (fun x => x.flag == false)).map (fun x => x.time)
  if arr.length = dep.length then some (arr.zip dep) else none

/-- The merge (debounce) step applied to a tagged event list `c`. -/
def busMergeC (g : Int) (c : List TEv) : Option (List (Nat × Nat)) :=
  pairEvents (keepEvents g c)

/-- Shift dwell rows to real-world timestamps: raw epoch plus elapsed seconds. -/
def withEpoch (epoch : Nat) (rows : List (Nat × Nat)) : List (Nat × Nat) :=
  rows.map (fun r => (epoch + r.1, epoch + r.2))

/-- The merge step followed by the timestamp conversion. -/
def mergeStepOut (g : Int) (epoch : Nat) (c : List TEv) : Option (List (Nat × Nat)) :=
  (busMergeC g c).map (withEpoch epoch)

/-- Whether the row at position `i` of `c` is a departure whose gap to the next
event's time is less than the merge threshold `g`. -/
def gapShort (g : Int) (c : List TEv) (i : Nat) : Bool :=
  match c.get? i, c.get? (i + 1) with
  | some x, some y => (decide ((y.time : Int) - (x.time : Int) < g)) && (x.flag == false)
  | _, _ => false

/-- Spec-side drop rule, from the claim's words: a row is dropped exactly when
it is itself a short-gap departure, or it immediately follows a short-gap
departure. -/
def specDropped (g : Int) (c : List TEv) : Nat → Bool
  | 0 => gapShort g c 0
  | i + 1 => gapShort g c (i + 1) || gapShort g c i

/-- Spec-side surviving events: the rows at positions not dropped. -/
def specKeep (g : Int) (c : List TEv) : List TEv :=
  (List.range c.length).filterMap (fun i => if specDropped g c i then none else c.get? i)

/-- Spec-side merge: pair the surviving arrivals with the surviving departures
positionally. -/
def specMergeC (g : Int) (c : List TEv) : Option (List (Nat × Nat)) :=
  pairEvents (specKeep g c)

/-- Spec-side merge with real-world timestamps (raw epoch + elapsed seconds). -/
def specMergeOut (g : Int) (epoch : Nat) (c : List TEv) : Option (List (Nat × Nat)) :=
  (specMergeC g c).map (withEpoch epoch)

/-- Whether the head element is a short-gap departure relative to the next
element of the list. -/
def headGap (g : Int) (x : TEv) : List TEv → Bool
  | [] => false
  | y :: _ => (decide ((y.time : Int) - (x.time : Int) < g)) && (x.flag == false)

/-- One-pass form of the keep computation: `pd` says whether the previous
element was a short-gap departure (so the current element must be dropped). -/
def keepAux (g : Int) : Bool → List TEv → List TEv
  | _, [] => []
  | pd, x :: rest =>
      if headGap g x rest || pd then keepAux g (headGap g x rest) rest
      else x :: keepAux g (headGap g x rest) rest

theorem flag1_cons (g : Int) (x : TEv) (rest : List TEv) :
    flag1 g (x :: rest) = headGap g x rest :: flag1 g rest := by
  cases rest <;> rfl

theorem keepZip_eq_keepAux (g : Int) :
    ∀ (pd : Bool) (c : List TEv),
      ((c.zip (List.zipWith (fun a b => a || b) (flag1 g c) (pd :: (flag1 g c).dropLast))).filter
          (fun pr => !pr.2)).map (fun pr => pr.1) = keepAux g pd c
  | pd, [] => by simp [keepAux]
  | pd, [x] => by cases pd <;> simp [keepAux, headGap, flag1]
  | pd, x :: y :: t => by
    have hrec := keepZip_eq_keepAux g (headGap g x (y :: t)) (y :: t)
    have hx : flag1 g (x :: y :: t) = headGap g x (y :: t) :: flag1 g (y :: t) :=
      flag1_cons g x (y :: t)
    have hy : flag1 g (y :: t) = headGap g y t :: flag1 g t := flag1_cons g y t
    rw [hx, hy]
    rw [show (headGap g x (y :: t) :: headGap g y t :: flag1 g t).dropLast
          = headGap g x (y :: t) :: (headGap g y t :: flag1 g t).dropLast from rfl]
    rw [List.zipWith_cons_cons, List.zip_cons_cons, List.filter_cons]
    rw [hy] at hrec
    cases h : headGap g x (y :: t) || pd with
    | true =>
      simp only [h, Bool.not_true, if_neg (by simp : ¬((false : Bool) = true))]
      rw [hrec]
      rw [show keepAux g pd (x :: y :: t)
            = if headGap g x (y :: t) || pd then keepAux g (headGap g x (y :: t)) (y :: t)
              else x :: keepAux g (headGap g x (y :: t)) (y :: t) from rfl]
      rw [if_pos h]
    | false =>
      simp only [h, Bool.not_false, if_true, List.map_cons]
      rw [hrec]
      rw [show keepAux g pd (x :: y :: t)
            = if headGap g x (y :: t) || pd then keepAux g (headGap g x (y :: t)) (y :: t)
              else x :: keepAux g (headGap g x (y :: t)) (y :: t) from rfl]
      rw [if_neg (by simp [h])]

theorem keepEvents_eq_keepAux (g : Int) (c : List TEv) :
    keepEvents g c = keepAux g false c :=
  keepZip_eq_keepAux g false c

theorem gapShort_cons_succ (g : Int) (x : TEv) (rest : List TEv) (i : Nat) :
    gapShort g (x :: rest) (i + 1) = gapShort g rest i := rfl

theorem gapShort_zero (g : Int) (x : TEv) (rest : List TEv) :
    gapShort g (x :: rest) 0 = headGap g x rest := by
  cases rest <;> rfl

/-- Generalisation of `specKeep` used to align the index-based drop rule with
the one-pass scan: `pd` replaces the "previous element was a short-gap
departure" condition for the head element. -/
def specKeepA (g : Int) (pd : Bool) (c : List TEv) : List TEv :=
  (List.range c.length).filterMap (fun i =>
    if (gapShort g c i || (match i with | 0 => pd | j + 1 => gapShort g c j)) then none
    else c.get? i)

theorem specKeepA_eq_keepAux (g : Int) :
    ∀ (pd : Bool) (c : List TEv), specKeepA g pd c = keepAux g pd c
  | pd, [] => by simp [specKeepA, keepAux]
  | pd, x :: rest => by
    have hrec := specKeepA_eq_keepAux g (headGap g x rest) rest
    unfold specKeepA
    rw [show (x :: rest).length = rest.length + 1 from rfl]
    rw [List.range_succ_eq_map]
    have htail : ((fun i =>
        if (gapShort g (x :: rest) i
            || (match i with | 0 => pd | j + 1 => gapShort g (x :: rest) j)) then none
        else (x :: rest).get? i) ∘ Nat.succ)
      = (fun i =>
        if (gapShort g rest i
            || (match i with | 0 => headGap g x rest | j + 1 => gapShort g rest j)) then none
        else rest.get? i) := by
      funext i
      cases i with
      | zero => simp [gapShort_cons_succ, gapShort_zero]
      | succ j => simp [gapShort_cons_succ]
    have hka : keepAux g pd (x :: rest)
        = if headGap g x rest || pd then keepAux g (headGap g x rest) rest
          else x :: keepAux g (headGap g x rest) rest := rfl
    unfold specKeepA at hrec
    cases h : headGap g x rest || pd with
    | true =>
      rw [List.filterMap_cons, List.filterMap_map, htail, hrec, hka]
      simp [gapShort_zero, h]
    | false =>
      rw [List.filterMap_cons, List.filterMap_map, htail, hrec, hka]
      simp [gapShort_zero, h]

theorem specKeep_eq_keepAux (g : Int) (c : List TEv) :
    specKeep g c = keepAux g false c := by
  have h : specKeep g c = specKeepA g false c := by
    unfold specKeep specKeepA
    refine List.filterMap_congr ?_
    intro i _
    cases i with
    | zero =>
      show (if specDropped g c 0 then none else c.get? 0) = _
      rw [show specDropped g c 0 = gapShort g c 0 from rfl]
      rw [show (gapShort g c 0 || (false : Bool)) = gapShort g c 0 from Bool.or_false _]
    | succ j =>
      rfl
  rw [h, specKeepA_eq_keepAux]

/-- C2: on any tagged time-ordered event list, the merge step of
`busgps_arriveinfo` drops exactly the short-gap departures together with the
event immediately following each such departure, pairs the surviving arrivals
with the surviving departures positionally, and stamps raw epoch plus elapsed
seconds: the shift/flag pipeline equals the index-based description. -/
theorem C2_dwell_merge_rule (g : Int) (epoch : Nat) (c : List TEv) :
    mergeStepOut g epoch c = specMergeOut g epoch c := by
  unfold mergeStepOut specMergeOut busMergeC specMergeC
  rw [keepEvents_eq_keepAux, specKeep_eq_keepAux]

/-! ### Part 2b: the merge step on raw visit lists -/

/-- The raw visit table `arrive` of one (vehicle, stop) pair: each entry is
`(arrivetime, leavetime)` in elapsed seconds, the first and last time
coordinate of one connected piece of the trajectory/corridor intersection. -/
def rawEvents (visits : List (Nat × Nat)) : List TEv :=
  visits.map (fun v => ⟨v.1, true⟩) ++ visits.map (fun v => ⟨v.2, false⟩)

/-- The sort key of `c.sort_values(by='time')`. -/
def timeLe (x y : TEv) : Prop := x.time ≤ y.time

instance : DecidableRel timeLe := fun x y => by
  unfold timeLe
  infer_instance

instance : IsTotal TEv timeLe := by
  constructor
  intro x y
  exact Nat.le_total x.time y.time

instance : IsTrans TEv timeLe := by
  constructor
  intro x y z
  exact Nat.le_trans

/-- The sorted tagged event list `c` built from the raw visits. -/
def sortedEvents (visits : List (Nat × Nat)) : List TEv :=
  List.insertionSort timeLe (rawEvents visits)

/-- The whole merge step of `busgps_arriveinfo` for one (vehicle, stop) pair,
from the raw visits to the merged dwell intervals. -/
def arriveMerge (g : Int) (visits : List (Nat × Nat)) : Option (List (Nat × Nat)) :=
  busMergeC g (sortedEvents visits)

/-- Well-formedness of a raw visit list, as delivered by the geometric
intersection: within each visit the arrival strictly precedes the departure,
and consecutive visits are strictly separated in time. -/
def StrictWF (vs : List (Nat × Nat)) : Prop :=
  (∀ p ∈ vs, p.1 < p.2) ∧ vs.Chain' (fun p q => p.2 < q.1)

instance : DecidablePred StrictWF := fun vs =>
  inferInstanceAs
    (Decidable ((∀ p ∈ vs, p.1 < p.2) ∧ vs.Chain' (fun p q : Nat × Nat => p.2 < q.1)))

/-- The visit list flattened to the alternating tagged event sequence
A d A d ... in time order. -/
def interleave : List (Nat × Nat) → List TEv
  | [] => []
  | v :: rest => ⟨v.1, true⟩ :: ⟨v.2, false⟩ :: interleave rest

/-- Reference form of the merge on visit lists: scan the visits left to right
and fuse two consecutive visits whenever the gap between the departure of the
first and the arrival of the second is below the threshold. -/
def mergeVisits (g : Int) : List (Nat × Nat) → List (Nat × Nat)
  | [] => []
  | [v] => [v]
  | v :: w :: rest =>
      if (w.1 : Int) - (v.2 : Int) < g then mergeVisits g ((v.1, w.2) :: rest)
      else v :: mergeVisits g (w :: rest)
  termination_by vs => vs.length

theorem keepAux_cons (g : Int) (pd : Bool) (x : TEv) (rest : List TEv) :
    keepAux g pd (x :: rest)
      = if headGap g x rest || pd then keepAux g (headGap g x rest) rest
        else x :: keepAux g (headGap g x rest) rest := rfl

theorem headGap_arr (g : Int) (a : Nat) (l : List TEv) :
    headGap g ⟨a, true⟩ l = false := by
  cases l <;> simp [headGap]

theorem headGap_dep (g : Int) (d : Nat) (y : TEv) (l : List TEv) :
    headGap g ⟨d, false⟩ (y :: l) = decide ((y.time : Int) - (d : Int) < g) := by
  simp [headGap]

theorem keepAux_interleave (g : Int) :
    ∀ (vs : List (Nat × Nat)), keepAux g false (interleave vs) = interleave (mergeVisits g vs)
  | [] => by simp [interleave, keepAux, mergeVisits]
  | [v] => by
    show keepAux g false (⟨v.1, true⟩ :: ⟨v.2, false⟩ :: []) = interleave (mergeVisits g [v])
    rw [keepAux_cons, headGap_arr]
    rw [show ((false : Bool) || false) = false from rfl, if_neg (by simp)]
    rw [keepAux_cons]
    rw [show headGap g ⟨v.2, false⟩ [] = false from rfl]
    rw [show ((false : Bool) || false) = false from rfl, if_neg (by simp)]
    rw [show mergeVisits g [v] = [v] from by rw [mergeVisits]]
    rfl
  | v :: w :: rest => by
    show keepAux g false
        (⟨v.1, true⟩ :: ⟨v.2, false⟩ :: ⟨w.1, true⟩ :: ⟨w.2, false⟩ :: interleave rest)
      = interleave (mergeVisits g (v :: w :: rest))
    rw [keepAux_cons, headGap_arr]
    rw [show ((false : Bool) || false) = false from rfl, if_neg (by simp)]
    rw [keepAux_cons, headGap_dep]
    cases hb : decide ((w.1 : Int) - (v.2 : Int) < g) with
    | true =>
      rw [show ((true : Bool) || false) = true from rfl, if_pos rfl]
      rw [keepAux_cons, headGap_arr]
      rw [show ((false : Bool) || true) = true from rfl, if_pos rfl]
      have hrec := keepAux_interleave g ((v.1, w.2) :: rest)
      rw [show interleave ((v.1, w.2) :: rest)
            = ⟨v.1, true⟩ :: ⟨w.2, false⟩ :: interleave rest from rfl] at hrec
      rw [keepAux_cons, headGap_arr] at hrec
      rw [show ((false : Bool) || false) = false from rfl, if_neg (by simp)] at hrec
      rw [hrec]
      rw [show mergeVisits g (v :: w :: rest)
            = if (w.1 : Int) - (v.2 : Int) < g then mergeVisits g ((v.1, w.2) :: rest)
              else v :: mergeVisits g (w :: rest) from by rw [mergeVisits]]
      rw [if_pos (of_decide_eq_true hb)]
    | false =>
      rw [show ((false : Bool) || false) = false from rfl, if_neg (by simp)]
      have hrec := keepAux_interleave g (w :: rest)
      rw [show interleave (w :: rest)
            = ⟨w.1, true⟩ :: ⟨w.2, false⟩ :: interleave rest from rfl] at hrec
      rw [hrec]
      rw [show mergeVisits g (v :: w :: rest)
            = if (w.1 : Int) - (v.2 : Int) < g then mergeVisits g ((v.1, w.2) :: rest)
              else v :: mergeVisits g (w :: rest) from by rw [mergeVisits]]
      rw [if_neg (of_decide_eq_false hb)]
      rfl
  termination_by vs => vs.length

theorem interleave_filter_arr :
    ∀ (ws : List (Nat × Nat)),
      (interleave ws).filter (fun x => x.flag == true) = ws.map (fun w => ⟨w.1, true⟩) := by
  intro ws
  induction ws with
  | nil => rfl
  | cons w rest ih =>
    simp [interleave, List.filter_cons]
    simpa using ih

theorem interleave_filter_dep :
    ∀ (ws : List (Nat × Nat)),
      (interleave ws).filter (fun x => x.flag == false) = ws.map (fun w => ⟨w.2, false⟩) := by
  intro ws
  induction ws with
  | nil => rfl
  | cons w rest ih =>
    simp [interleave, List.filter_cons]
    simpa using ih

theorem zip_fst_snd {α β : Type} :
    ∀ (l : List (α × β)), List.zip (l.map Prod.fst) (l.map Prod.snd) = l := by
  intro l
  induction l with
  | nil => rfl
  | cons x xs ih => simp [ih]

theorem pairEvents_interleave (ws : List (Nat × Nat)) :
    pairEvents (interleave ws) = some ws := by
  unfold pairEvents
  rw [interleave_filter_arr, interleave_filter_dep]
  simp only [List.map_map, List.length_map]
  simp only [if_true]
  have h1 : ws.map ((fun x : TEv => x.time) ∘ (fun w : Nat × Nat => (⟨w.1, true⟩ : TEv)))
      = ws.map Prod.fst := by
    refine List.map_congr_left ?_
    intro w _
    rfl
  have h2 : ws.map ((fun x : TEv => x.time) ∘ (fun w : Nat × Nat => (⟨w.2, false⟩ : TEv)))
      = ws.map Prod.snd := by
    refine List.map_congr_left ?_
    intro w _
    rfl
  rw [h1, h2, zip_fst_snd]

theorem busMergeC_interleave (g : Int) (vs : List (Nat × Nat)) :
    busMergeC g (interleave vs) = some (mergeVisits g vs) := by
  unfold busMergeC
  rw [keepEvents_eq_keepAux, keepAux_interleave, pairEvents_interleave]

theorem perm_rawEvents_interleave :
    ∀ (vs : List (Nat × Nat)), List.Perm (rawEvents vs) (interleave vs) := by
  intro vs
  induction vs with
  | nil => exact List.Perm.refl _
  | cons v rest ih =>
    show List.Perm ((⟨v.1, true⟩ :: rest.map (fun v => ⟨v.1, true⟩))
        ++ (⟨v.2, false⟩ :: rest.map (fun v => ⟨v.2, false⟩)))
      (⟨v.1, true⟩ :: ⟨v.2, false⟩ :: interleave rest)
    rw [List.cons_append]
    refine List.Perm.cons _ ?_
    refine List.Perm.trans List.perm_middle ?_
    exact List.Perm.cons _ ih

theorem interleave_chain_lt :
    ∀ (vs : List (Nat × Nat)), StrictWF vs →
      (interleave vs).Chain' (fun x y => x.time < y.time)
  | [], _ => List.chain'_nil
  | v :: rest, h => by
    show List.Chain' _ (⟨v.1, true⟩ :: ⟨v.2, false⟩ :: interleave rest)
    rw [List.chain'_cons]
    refine ⟨h.1 v (List.mem_cons_self _ _), ?_⟩
    cases rest with
    | nil => simp [interleave]
    | cons w rest' =>
      have hrec := interleave_chain_lt (w :: rest')
        ⟨fun p hp => h.1 p (List.mem_cons_of_mem _ hp), (List.chain'_cons.mp h.2).2⟩
      rw [show interleave (w :: rest')
            = ⟨w.1, true⟩ :: ⟨w.2, false⟩ :: interleave rest' from rfl] at hrec
      rw [show interleave (w :: rest')
            = ⟨w.1, true⟩ :: ⟨w.2, false⟩ :: interleave rest' from rfl]
      rw [List.chain'_cons]
      exact ⟨(List.chain'_cons.mp h.2).1, hrec⟩

theorem sortedEvents_eq_interleave (vs : List (Nat × Nat)) (h : StrictWF vs) :
    sortedEvents vs = interleave vs := by
  have hperm : List.Perm (sortedEvents vs) (interleave vs) :=
    (List.perm_insertionSort timeLe (rawEvents vs)).trans (perm_rawEvents_interleave vs)
  have hchain : (interleave vs).Chain' (fun x y => x.time < y.time) :=
    interleave_chain_lt vs h
  haveI : IsTrans TEv (fun x y : TEv => x.time < y.time) :=
    ⟨fun _ _ _ hab hbc => Nat.lt_trans hab hbc⟩
  have hlt : (interleave vs).Pairwise (fun x y => x.time < y.time) :=
    List.chain'_iff_pairwise.mp hchain
  have hne_i : (interleave vs).Pairwise (fun x y => x.time ≠ y.time) :=
    hlt.imp (fun hab => Nat.ne_of_lt hab)
  have hne_s : (sortedEvents vs).Pairwise (fun x y => x.time ≠ y.time) :=
    (hperm.pairwise_iff (fun hab h' => hab h'.symm)).mpr hne_i
  have hle_s : (sortedEvents vs).Pairwise timeLe :=
    List.sorted_insertionSort timeLe (rawEvents vs)
  have hr_s : (sortedEvents vs).Pairwise (fun x y => x.time < y.time ∨ x = y) :=
    (hle_s.and hne_s).imp (fun hab => Or.inl (Nat.lt_of_le_of_ne hab.1 hab.2))
  have hr_i : (interleave vs).Pairwise (fun x y => x.time < y.time ∨ x = y) :=
    hlt.imp (fun hab => Or.inl hab)
  haveI : IsAntisymm TEv (fun x y : TEv => x.time < y.time ∨ x = y) := by
    constructor
    intro a b hab hba
    rcases hab with hab | hab
    · rcases hba with hba | hba
      · exact absurd hba (Nat.lt_asymm hab)
      · exact hba.symm
    · exact hab
  exact List.eq_of_perm_of_sorted hperm hr_s hr_i

theorem arriveMerge_eq_mergeVisits (g : Int) (vs : List (Nat × Nat)) (h : StrictWF vs) :
    arriveMerge g vs = some (mergeVisits g vs) := by
  unfold arriveMerge
  rw [sortedEvents_eq_interleave vs h, busMergeC_interleave]

theorem mergeVisits_unfold (g : Int) (v w : Nat × Nat) (rest : List (Nat × Nat)) :
    mergeVisits g (v :: w :: rest)
      = if (w.1 : Int) - (v.2 : Int) < g then mergeVisits g ((v.1, w.2) :: rest)
        else v :: mergeVisits g (w :: rest) := by
  rw [mergeVisits]

theorem mergeVisits_head (g : Int) :
    ∀ (v : Nat × Nat) (rest : List (Nat × Nat)),
      ∃ t tl, mergeVisits g (v :: rest) = (v.1, t) :: tl
  | v, [] => ⟨v.2, [], by rw [mergeVisits]⟩
  | v, w :: rest => by
    rw [mergeVisits_unfold]
    by_cases hb : (w.1 : Int) - (v.2 : Int) < g
    · rw [if_pos hb]
      rcases mergeVisits_head g (v.1, w.2) rest with ⟨t, tl, ht⟩
      exact ⟨t, tl, ht⟩
    · rw [if_neg hb]
      exact ⟨v.2, mergeVisits g (w :: rest), rfl⟩
  termination_by _ rest => rest.length

theorem strictWF_tail {v : Nat × Nat} {t : List (Nat × Nat)} (h : StrictWF (v :: t)) :
    StrictWF t :=
  ⟨fun p hp => h.1 p (List.mem_cons_of_mem _ hp), h.2.tail⟩

theorem strictWF_mem_lt :
    ∀ (v : Nat × Nat) (l : List (Nat × Nat)), StrictWF (v :: l) → ∀ q ∈ l, v.2 < q.1
  | _, [], _, q, hq => absurd hq (List.not_mem_nil q)
  | v, w :: t, h, q, hq => by
    rcases List.mem_cons.mp hq with heq | hq'
    · rw [heq]
      exact (List.chain'_cons.mp h.2).1
    · have h' : StrictWF (w :: t) := strictWF_tail h
      have h1 := strictWF_mem_lt w t h' q hq'
      have hvw : v.2 < w.1 := (List.chain'_cons.mp h.2).1
      have hw : w.1 < w.2 := h.1 w (List.mem_cons_of_mem _ (List.mem_cons_self _ _))
      omega

theorem strictWF_pairwise :
    ∀ (l : List (Nat × Nat)), StrictWF l → l.Pairwise (fun p q => p.2 < q.1)
  | [], _ => List.Pairwise.nil
  | v :: t, h =>
    List.Pairwise.cons (strictWF_mem_lt v t h) (strictWF_pairwise t (strictWF_tail h))

theorem mergeVisits_strictWF (g : Int) :
    ∀ (vs : List (Nat × Nat)), StrictWF vs → StrictWF (mergeVisits g vs)
  | [], h => by
    rw [mergeVisits]
    exact h
  | [v], h => by
    rw [mergeVisits]
    exact h
  | v :: w :: rest, h => by
    rw [mergeVisits_unfold]
    have hvw : v.2 < w.1 := (List.chain'_cons.mp h.2).1
    have hv : v.1 < v.2 := h.1 v (List.mem_cons_self _ _)
    have hw : w.1 < w.2 := h.1 w (List.mem_cons_of_mem _ (List.mem_cons_self _ _))
    by_cases hb : (w.1 : Int) - (v.2 : Int) < g
    · rw [if_pos hb]
      refine mergeVisits_strictWF g ((v.1, w.2) :: rest) ?_
      constructor
      · intro p hp
        rcases List.mem_cons.mp hp with heq | hp'
        · rw [heq]
          show v.1 < w.2
          omega
        · exact h.1 p (List.mem_cons_of_mem _ (List.mem_cons_of_mem _ hp'))
      · cases rest with
        | nil => exact List.chain'_singleton _
        | cons u t =>
          rw [List.chain'_cons]
          refine ⟨?_, (List.chain'_cons.mp (List.chain'_cons.mp h.2).2).2⟩
          show w.2 < u.1
          exact (List.chain'_cons.mp (List.chain'_cons.mp h.2).2).1
    · rw [if_neg hb]
      have hrec := mergeVisits_strictWF g (w :: rest) (strictWF_tail h)
      constructor
      · intro p hp
        rcases List.mem_cons.mp hp with heq | hp'
        · rw [heq]
          exact hv
        · exact hrec.1 p hp'
      · rcases mergeVisits_head g w rest with ⟨t, tl, ht⟩
        rw [ht]
        rw [List.chain'_cons]
        refine ⟨hvw, ?_⟩
        rw [← ht]
        exact hrec.2
  termination_by vs => vs.length

/-- The list of inter-visit gaps (next arrival minus previous departure). -/
def visitGaps : List (Nat × Nat) → List Int
  | v :: w :: rest => ((w.1 : Int) - (v.2 : Int)) :: visitGaps (w :: rest)
  | _ => []

theorem visitGaps_length :
    ∀ (v : Nat × Nat) (rest : List (Nat × Nat)), (visitGaps (v :: rest)).length = rest.length
  | _, [] => rfl
  | v, w :: rest => by
    rw [show visitGaps (v :: w :: rest)
          = ((w.1 : Int) - (v.2 : Int)) :: visitGaps (w :: rest) from rfl]
    rw [List.length_cons, visitGaps_length w rest]
    rfl

theorem visitGaps_snd_only (p q : Nat × Nat) (h : p.2 = q.2) (rest : List (Nat × Nat)) :
    visitGaps (p :: rest) = visitGaps (q :: rest) := by
  cases rest with
  | nil => rfl
  | cons u t =>
    rw [show visitGaps (p :: u :: t) = ((u.1 : Int) - (p.2 : Int)) :: visitGaps (u :: t) from rfl]
    rw [show visitGaps (q :: u :: t) = ((u.1 : Int) - (q.2 : Int)) :: visitGaps (u :: t) from rfl]
    rw [h]

theorem mergeVisits_length (g : Int) :
    ∀ (vs : List (Nat × Nat)),
      (mergeVisits g vs).length = vs.length - (visitGaps vs).countP (fun d => decide (d < g))
  | [] => by
    rw [mergeVisits]
    rfl
  | [v] => by
    rw [mergeVisits]
    rfl
  | v :: w :: rest => by
    rw [mergeVisits_unfold]
    have hC : (visitGaps (w :: rest)).countP (fun d => decide (d < g)) ≤ rest.length := by
      calc (visitGaps (w :: rest)).countP (fun d => decide (d < g))
          ≤ (visitGaps (w :: rest)).length := List.countP_le_length _
        _ = rest.length := visitGaps_length w rest
    rw [show visitGaps (v :: w :: rest)
          = ((w.1 : Int) - (v.2 : Int)) :: visitGaps (w :: rest) from rfl]
    by_cases hb : (w.1 : Int) - (v.2 : Int) < g
    · rw [if_pos hb]
      rw [mergeVisits_length g ((v.1, w.2) :: rest)]
      rw [visitGaps_snd_only (v.1, w.2) w rfl rest]
      rw [List.countP_cons_of_pos _ _ (by simpa using hb)]
      simp only [List.length_cons]
      omega
    · rw [if_neg hb]
      rw [List.length_cons, mergeVisits_length g (w :: rest)]
      rw [List.countP_cons_of_neg _ _ (by simpa using hb)]
      simp only [List.length_cons]
      omega
  termination_by vs => vs.length

theorem mergeVisits_length_mono (g1 g2 : Int) (hg : g1 ≤ g2) (vs : List (Nat × Nat)) :
    (mergeVisits g2 vs).length ≤ (mergeVisits g1 vs).length := by
  rw [mergeVisits_length, mergeVisits_length]
  have hcount : (visitGaps vs).countP (fun d => decide (d < g1))
      ≤ (visitGaps vs).countP (fun d => decide (d < g2)) := by
    refine List.countP_mono_left ?_
    intro d _ hd
    have : d < g1 := of_decide_eq_true hd
    exact decide_eq_true (lt_of_lt_of_le this hg)
  omega

/-! ### Part 3: the distance-limited matching policy (`method='dislimit'`) -/

/-- One step of the distance-limited sequential matcher: given the previous
assigned path position `prev` and the two consecutive fixes `pi` and `pj`
(as abstract points), compute the position assigned to `pj`.  `projf` is the
nearest-point projection onto the route and `distf` the planar distance,
both external geometry primitives. -/
def dlStep {P : Type} (projf : P → Int) (distf : P → P → Int)
    (prev : Int) (pi pj : P) : Int :=
  let dis := distf pj pi
  if dis = 0 then prev
  else
    let proj2 := projf pj
    if |proj2 - prev| > dis then (proj2 - prev).sign * dis + prev
    else proj2

/-- The sequential loop from the second fix on. -/
def dlGo {P : Type} (projf : P → Int) (distf : P → P → Int) :
    Int → P → List P → List Int
  | _, _, [] => []
  | prev, pi, pj :: rest =>
      dlStep projf distf prev pi pj :: dlGo projf distf (dlStep projf distf prev pi pj) pj rest

/-- The distance-limited matcher over one vehicle's time-ordered fixes.  For a
single fix the loop body never runs and the `project` column keeps its
initialisation value 0; otherwise the first fix gets its nearest projection
and every later fix is computed by `dlStep` from its predecessor. -/
def dislimitMatch {P : Type} (projf : P → Int) (distf : P → P → Int) :
    List P → List Int
  | [] => []
  | [_] => [0]
  | p0 :: p1 :: rest => projf p0 :: dlGo projf distf (projf p0) p0 (p1 :: rest)

/-! ### Part 4: the per-vehicle / per-stop loop of `busgps_arriveinfo`
(lines 151-216 of `busgps.py`).  The geometric trajectory/corridor
intersection is an external primitive, modelled as the parameter `visitsOf`:
it maps a vehicle's projected trajectory and a stop's path position to the
list of raw visits `(arrivetime, leavetime)` in elapsed seconds. -/

/-- One row of the `arrive_info` result table. -/
structure DwellRow where
  vid : Nat
  stop : String
  arrive : Nat
  leave : Nat
deriving DecidableEq, Repr

/-- pandas `drop_duplicates()`: keep the first occurrence of each value, in
order of first appearance. -/
def pdDropDuplicates {α : Type} [DecidableEq α] : List α → List α
  | [] => []
  | x :: rest => x :: pdDropDuplicates (rest.filter (fun y => decide (y ≠ x)))
  termination_by l => l.length
  decreasing_by
    simp only [List.length_cons]
    exact Nat.lt_succ_of_le (List.length_filter_le _ _)

/-- The (name, position) sequence the stop loop iterates over:
`for stopname in stop[stopcol].drop_duplicates()` with
`position = stop[stop[stopcol] == stopname]['project'].iloc[0]`, the position
of the first record with that name.  The `headD` default is unreachable since
every iterated name occurs in the table. -/
def firstPos (stops : List (String × Int)) (nm : String) : Int :=
  ((stops.filter (fun s => s.1 == nm)).map Prod.snd).headD 0

def stopsIter (stops : List (String × Int)) : List (String × Int) :=
  (pdDropDuplicates (stops.map Prod.fst)).map (fun nm => (nm, firstPos stops nm))

/-- Keep only the first stop record of each name. -/
def keepFirstByName : List (String × Int) → List (String × Int)
  | [] => []
  | s :: rest => s :: keepFirstByName (rest.filter (fun t => decide (t.1 ≠ s.1)))
  termination_by l => l.length
  decreasing_by
    simp only [List.length_cons]
    exact Nat.lt_succ_of_le (List.length_filter_le _ _)

/-- The `arrive_new` block of one (vehicle, stop) pair, as DwellRow records. -/
def pairBlock (g : Int) (vid : Nat) (nm : String) (visits : List (Nat × Nat)) :
    Option (List DwellRow) :=
  (busMergeC g (sortedEvents visits)).map
    (fun rows => rows.map (fun r => ⟨vid, nm, r.1, r.2⟩))

/-- The blocks appended to `ls` while processing one vehicle: the whole stop
loop is skipped unless the vehicle has more than one fix, and a stop whose
trajectory/corridor intersection is empty is skipped by `continue`. -/
def vehicleGroups (visitsOf : List (Nat × Int) → Int → List (Nat × Nat)) (g : Int)
    (stops : List (String × Int)) (v : Nat × List (Nat × Int)) :
    List (Option (List DwellRow)) :=
  if 1 < v.2.length then
    (stopsIter stops).filterMap (fun s =>
      if (visitsOf v.2 s.2).isEmpty then none
      else some (pairBlock g v.1 s.1 (visitsOf v.2 s.2)))
  else []

/-- The list `ls` of per-pair blocks over all vehicles. -/
def lsGroups (visitsOf : List (Nat × Int) → Int → List (Nat × Nat)) (g : Int)
    (vehicles : List (Nat × List (Nat × Int))) (stops : List (String × Int)) :
    List (Option (List DwellRow)) :=
  (vehicles.map (vehicleGroups visitsOf g stops)).flatten

/-- Collect a list of fallible results: any raised exception aborts the run. -/
def seqOpt {α : Type} : List (Option α) → Option (List α)
  | [] => some []
  | o :: rest =>
      match o, seqOpt rest with
      | some x, some xs => some (x :: xs)
      | _, _ => none

/-- Convert a row to real-world timestamps (raw epoch plus elapsed seconds). -/
def stampRow (epoch : Nat) (r : DwellRow) : DwellRow :=
  ⟨r.vid, r.stop, epoch + r.arrive, epoch + r.leave⟩

/-- The function `busgps_arriveinfo` from the per-vehicle projected trajectories on: run
the vehicle/stop loop, concatenate the collected blocks and stamp real
timestamps.  `pd.concat(ls)` raises when `ls` is empty, and an exception
anywhere yields `none`. -/
def busgps_arriveinfo (visitsOf : List (Nat × Int) → Int → List (Nat × Nat))
    (g : Int) (epoch : Nat) (vehicles : List (Nat × List (Nat × Int)))
    (stops : List (String × Int)) : Option (List DwellRow) :=
  if lsGroups visitsOf g vehicles stops = [] then none
  else (seqOpt (lsGroups visitsOf g vehicles stops)).map
    (fun blocks => blocks.flatten.map (stampRow epoch))

theorem filterMap_ite_eq_filter_map {α β : Type} (p : α → Bool) (f : α → β) (l : List α) :
    l.filterMap (fun a => if p a then none else some (f a))
      = (l.filter (fun a => !p a)).map f := by
  induction l with
  | nil => rfl
  | cons x xs ih =>
    cases h : p x <;> simp [List.filterMap_cons, List.filter_cons, h, ih]

theorem vehicleGroups_eq (visitsOf : List (Nat × Int) → Int → List (Nat × Nat)) (g : Int)
    (stops : List (String × Int)) (v : Nat × List (Nat × Int)) :
    vehicleGroups visitsOf g stops v
      = if 1 < v.2.length then
          ((stopsIter stops).filter (fun s => !(visitsOf v.2 s.2).isEmpty)).map
            (fun s => pairBlock g v.1 s.1 (visitsOf v.2 s.2))
        else [] := by
  unfold vehicleGroups
  by_cases h : 1 < v.2.length
  · rw [if_pos h, if_pos h, filterMap_ite_eq_filter_map]
  · rw [if_neg h, if_neg h]

/-- C7 core equation: the collected blocks are exactly those of vehicles with
more than one fix at stops with a non-empty intersection; skipped entities
contribute nothing and cause no failure. -/
theorem lsGroups_eq (visitsOf : List (Nat × Int) → Int → List (Nat × Nat)) (g : Int)
    (vehicles : List (Nat × List (Nat × Int))) (stops : List (String × Int)) :
    lsGroups visitsOf g vehicles stops
      = ((vehicles.filter (fun v => 1 < v.2.length)).map (fun v =>
          ((stopsIter stops).filter (fun s => !(visitsOf v.2 s.2).isEmpty)).map
            (fun s => pairBlock g v.1 s.1 (visitsOf v.2 s.2)))).flatten := by
  induction vehicles with
  | nil => rfl
  | cons v vs ih =>
    show (vehicleGroups visitsOf g stops v :: vs.map (vehicleGroups visitsOf g stops)).flatten = _
    rw [List.flatten_cons, List.filter_cons]
    by_cases h : 1 < v.2.length
    · rw [if_pos (by simpa using h), List.map_cons, List.flatten_cons]
      rw [vehicleGroups_eq, if_pos h]
      exact congrArg _ ih
    · rw [if_neg (by simpa using h)]
      rw [vehicleGroups_eq, if_neg h, List.nil_append]
      exact ih

/-- C7: a vehicle with fewer than two projected fixes, and a (vehicle, stop)
pair with an empty trajectory/corridor intersection, contribute no block at
all (hence zero DwellEvent rows) and raise nothing: the collected blocks are
exactly those of the remaining pairs, and the whole result is unchanged when
the short vehicles are removed from the input. -/
theorem C7_sparsity_silent_skip (visitsOf : List (Nat × Int) → Int → List (Nat × Nat))
    (g : Int) (epoch : Nat) (vehicles : List (Nat × List (Nat × Int)))
    (stops : List (String × Int)) :
    (lsGroups visitsOf g vehicles stops
      = ((vehicles.filter (fun v => 1 < v.2.length)).map (fun v =>
          ((stopsIter stops).filter (fun s => !(visitsOf v.2 s.2).isEmpty)).map
            (fun s => pairBlock g v.1 s.1 (visitsOf v.2 s.2)))).flatten)
    ∧ busgps_arriveinfo visitsOf g epoch vehicles stops
        = busgps_arriveinfo visitsOf g epoch
            (vehicles.filter (fun v => 1 < v.2.length)) stops := by
  refine ⟨lsGroups_eq visitsOf g vehicles stops, ?_⟩
  have hls : lsGroups visitsOf g vehicles stops
      = lsGroups visitsOf g (vehicles.filter (fun v => 1 < v.2.length)) stops := by
    rw [lsGroups_eq, lsGroups_eq]
    rw [List.filter_filter]
    refine congrArg _ (congrArg _ ?_)
    refine List.filter_congr ?_
    intro v _
    rw [Bool.and_self]
  unfold busgps_arriveinfo
  rw [hls]

/-- C9: when every (vehicle, stop) pair is skipped (each vehicle either has at
most one fix, or an empty intersection at every iterated stop), the collected
list `ls` is empty, so `busgps_arriveinfo` does not return an empty table: the
final `pd.concat(ls)` fails. -/
theorem C9_empty_run_fails (visitsOf : List (Nat × Int) → Int → List (Nat × Nat))
    (g : Int) (epoch : Nat) (vehicles : List (Nat × List (Nat × Int)))
    (stops : List (String × Int))
    (h : ∀ v ∈ vehicles, 1 < v.2.length → ∀ s ∈ stopsIter stops, visitsOf v.2 s.2 = []) :
    busgps_arriveinfo visitsOf g epoch vehicles stops = none := by
  have hg : lsGroups visitsOf g vehicles stops = [] := by
    rw [lsGroups_eq]
    rw [List.flatten_eq_nil_iff.mpr]
    intro l hl
    rcases List.mem_map.mp hl with ⟨v, hv, rfl⟩
    have hv1 : v ∈ vehicles := List.mem_of_mem_filter hv
    have hv2 : 1 < v.2.length := by simpa using List.of_mem_filter hv
    have hfe : (stopsIter stops).filter (fun s => !(visitsOf v.2 s.2).isEmpty) = [] := by
      rw [List.filter_eq_nil_iff]
      intro s hs
      rw [h v hv1 hv2 s hs]
      simp
    rw [hfe, List.map_nil]
  unfold busgps_arriveinfo
  rw [if_pos hg]

/-- C9 witness: a vehicle with two fixes that never enters any stop corridor. -/
theorem C9_empty_run_fails_witness :
    (∀ v ∈ ([(1, [(0, 0), (5, 0)])] : List (Nat × List (Nat × Int))), 1 < v.2.length →
      ∀ s ∈ stopsIter [("S", 0)], (fun _ _ => ([] : List (Nat × Nat))) v.2 s.2 = []) ∧
    busgps_arriveinfo (fun _ _ => []) 300 0 [(1, [(0, 0), (5, 0)])] [("S", 0)] = none :=
  ⟨fun _ _ _ _ _ => rfl,
    C9_empty_run_fails (fun _ _ => []) 300 0 [(1, [(0, 0), (5, 0)])] [("S", 0)]
      (fun _ _ _ _ _ => rfl)⟩

theorem mem_pdDropDuplicates {α : Type} [DecidableEq α] :
    ∀ (l : List α) (a : α), a ∈ pdDropDuplicates l → a ∈ l
  | [], a, h => by
    rw [pdDropDuplicates] at h
    exact absurd h (List.not_mem_nil a)
  | x :: rest, a, h => by
    rw [pdDropDuplicates] at h
    rcases List.mem_cons.mp h with heq | h'
    · rw [heq]
      exact List.mem_cons_self _ _
    · exact List.mem_cons_of_mem _
        (List.mem_of_mem_filter
          (mem_pdDropDuplicates (rest.filter (fun y => decide (y ≠ x))) a h'))
  termination_by l => l.length
  decreasing_by
    simp only [List.length_cons]
    exact Nat.lt_succ_of_le (List.length_filter_le _ _)

theorem pdDropDuplicates_pairwise_ne {α : Type} [DecidableEq α] :
    ∀ (l : List α), (pdDropDuplicates l).Pairwise (fun a b => a ≠ b)
  | [] => by
    rw [pdDropDuplicates]
    exact List.Pairwise.nil
  | x :: rest => by
    rw [pdDropDuplicates]
    refine List.Pairwise.cons ?_
      (pdDropDuplicates_pairwise_ne (rest.filter (fun y => decide (y ≠ x))))
    intro b hb heq
    have hbf := mem_pdDropDuplicates _ b hb
    have hd : decide (b ≠ x) = true := (List.mem_filter.mp hbf).2
    exact (of_decide_eq_true hd) heq.symm
  termination_by l => l.length
  decreasing_by
    simp only [List.length_cons]
    exact Nat.lt_succ_of_le (List.length_filter_le _ _)

theorem mem_keepFirstByName :
    ∀ (l : List (String × Int)) (t : String × Int), t ∈ keepFirstByName l → t ∈ l
  | [], t, h => by
    rw [keepFirstByName] at h
    exact absurd h (List.not_mem_nil t)
  | s :: rest, t, h => by
    rw [keepFirstByName] at h
    rcases List.mem_cons.mp h with heq | h'
    · rw [heq]
      exact List.mem_cons_self _ _
    · exact List.mem_cons_of_mem _
        (List.mem_of_mem_filter
          (mem_keepFirstByName (rest.filter (fun u => decide (u.1 ≠ s.1))) t h'))
  termination_by l => l.length
  decreasing_by
    simp only [List.length_cons]
    exact Nat.lt_succ_of_le (List.length_filter_le _ _)

theorem firstPos_keepFirst :
    ∀ (l : List (String × Int)) (nm : String),
      firstPos (keepFirstByName l) nm = firstPos l nm
  | [], nm => by rw [keepFirstByName]
  | s :: rest, nm => by
    rw [keepFirstByName]
    unfold firstPos
    rw [List.filter_cons, List.filter_cons]
    by_cases h : s.1 = nm
    · rw [if_pos (by simpa using h), if_pos (by simpa using h)]
      rfl
    · rw [if_neg (by simpa using h), if_neg (by simpa using h)]
      have h1 := firstPos_keepFirst (rest.filter (fun t => decide (t.1 ≠ s.1))) nm
      unfold firstPos at h1
      rw [h1]
      have h2 : (rest.filter (fun t => decide (t.1 ≠ s.1))).filter (fun t => t.1 == nm)
          = rest.filter (fun t => t.1 == nm) := by
        rw [List.filter_filter]
        refine List.filter_congr ?_
        intro t _
        cases ht : (t.1 == nm) with
        | false => simp [ht]
        | true =>
          have htne : t.1 ≠ s.1 := by
            rw [beq_iff_eq.mp ht]
            exact fun heq => h heq.symm
          simp [ht, htne]
      rw [h2]
  termination_by l => l.length
  decreasing_by
    simp only [List.length_cons]
    exact Nat.lt_succ_of_le (List.length_filter_le _ _)

theorem pdDrop_names_keepFirst :
    ∀ (l : List (String × Int)),
      pdDropDuplicates ((keepFirstByName l).map Prod.fst)
        = pdDropDuplicates (l.map Prod.fst)
  | [] => by rw [keepFirstByName]
  | s :: rest => by
    rw [keepFirstByName]
    rw [show ((s :: keepFirstByName (rest.filter (fun t => decide (t.1 ≠ s.1)))).map Prod.fst)
          = s.1 :: (keepFirstByName (rest.filter (fun t => decide (t.1 ≠ s.1)))).map Prod.fst
        from rfl]
    rw [show ((s :: rest).map Prod.fst) = s.1 :: rest.map Prod.fst from rfl]
    rw [pdDropDuplicates, pdDropDuplicates]
    refine congrArg _ ?_
    have hid : ((keepFirstByName (rest.filter (fun t => decide (t.1 ≠ s.1)))).map
          Prod.fst).filter (fun y => decide (y ≠ s.1))
        = (keepFirstByName (rest.filter (fun t => decide (t.1 ≠ s.1)))).map Prod.fst := by
      rw [List.filter_eq_self]
      intro a ha
      rcases List.mem_map.mp ha with ⟨t, ht, rfl⟩
      have ht' := mem_keepFirstByName _ t ht
      exact (List.mem_filter.mp ht').2
    rw [hid]
    have hmf : ((rest.map Prod.fst).filter (fun y => decide (y ≠ s.1)))
        = (rest.filter (fun t => decide (t.1 ≠ s.1))).map Prod.fst := by
      rw [List.filter_map]
      rfl
    rw [hmf]
    exact pdDrop_names_keepFirst (rest.filter (fun t => decide (t.1 ≠ s.1)))
  termination_by l => l.length
  decreasing_by
    simp only [List.length_cons]
    exact Nat.lt_succ_of_le (List.length_filter_le _ _)

theorem stopsIter_keepFirst (stops : List (String × Int)) :
    stopsIter (keepFirstByName stops) = stopsIter stops := by
  unfold stopsIter
  rw [pdDrop_names_keepFirst]
  refine List.map_congr_left ?_
  intro nm _
  rw [firstPos_keepFirst]

/-- C10: when several stop records share a name, only the first record's
projected position is ever used: the whole computation is unchanged when all
later same-named placements are removed from the stop table. -/
theorem C10_first_placement_only (visitsOf : List (Nat × Int) → Int → List (Nat × Nat))
    (g : Int) (epoch : Nat) (vehicles : List (Nat × List (Nat × Int)))
    (stops : List (String × Int)) :
    busgps_arriveinfo visitsOf g epoch vehicles (keepFirstByName stops)
      = busgps_arriveinfo visitsOf g epoch vehicles stops := by
  have hvg : vehicleGroups visitsOf g (keepFirstByName stops)
      = vehicleGroups visitsOf g stops := by
    funext v
    unfold vehicleGroups
    rw [stopsIter_keepFirst]
  unfold busgps_arriveinfo lsGroups
  rw [hvg]

/-! ### Success normal form of `busgps_arriveinfo` under well-formed visits -/

/-- The dwell rows of one (vehicle, stop) block, in terms of `mergeVisits`. -/
def blockRows (g : Int) (vid : Nat) (nm : String) (visits : List (Nat × Nat)) :
    List DwellRow :=
  (mergeVisits g visits).map (fun r => ⟨vid, nm, r.1, r.2⟩)

/-- The stops a given vehicle actually visits (non-empty intersection). -/
def stopsNE (visitsOf : List (Nat × Int) → Int → List (Nat × Nat))
    (stops : List (String × Int)) (v : Nat × List (Nat × Int)) : List (String × Int) :=
  (stopsIter stops).filter (fun s => !(visitsOf v.2 s.2).isEmpty)

/-- The blocks of the whole run, grouped by vehicle and stop. -/
def nestedBlocks (visitsOf : List (Nat × Int) → Int → List (Nat × Nat)) (g : Int)
    (vehicles : List (Nat × List (Nat × Int))) (stops : List (String × Int)) :
    List (List (List DwellRow)) :=
  (vehicles.filter (fun v => 1 < v.2.length)).map (fun v =>
    (stopsNE visitsOf stops v).map (fun s => blockRows g v.1 s.1 (visitsOf v.2 s.2)))

theorem pairBlock_eq_blockRows (g : Int) (vid : Nat) (nm : String)
    (visits : List (Nat × Nat)) (h : StrictWF visits) :
    pairBlock g vid nm visits = some (blockRows g vid nm visits) := by
  unfold pairBlock blockRows
  rw [show busMergeC g (sortedEvents visits) = arriveMerge g visits from rfl]
  rw [arriveMerge_eq_mergeVisits g visits h]
  rfl

theorem seqOpt_map_some {α : Type} : ∀ (l : List α), seqOpt (l.map some) = some l
  | [] => rfl
  | x :: rest => by
    show (match some x, seqOpt (rest.map some) with
      | some y, some ys => some (y :: ys)
      | _, _ => none) = some (x :: rest)
    rw [seqOpt_map_some rest]

theorem lsGroups_eq_nested (visitsOf : List (Nat × Int) → Int → List (Nat × Nat)) (g : Int)
    (vehicles : List (Nat × List (Nat × Int))) (stops : List (String × Int))
    (hwf : ∀ traj pos, StrictWF (visitsOf traj pos)) :
    lsGroups visitsOf g vehicles stops
      = ((nestedBlocks visitsOf g vehicles stops).flatten).map some := by
  rw [lsGroups_eq]
  unfold nestedBlocks
  rw [List.map_flatten]
  refine congrArg _ ?_
  rw [List.map_map]
  refine List.map_congr_left ?_
  intro v _
  show ((stopsIter stops).filter (fun s => !(visitsOf v.2 s.2).isEmpty)).map
      (fun s => pairBlock g v.1 s.1 (visitsOf v.2 s.2))
    = ((stopsNE visitsOf stops v).map (fun s => blockRows g v.1 s.1 (visitsOf v.2 s.2))).map
        some
  rw [List.map_map]
  refine List.map_congr_left ?_
  intro s _
  exact pairBlock_eq_blockRows g v.1 s.1 (visitsOf v.2 s.2) (hwf v.2 s.2)

theorem arriveinfo_success_form (visitsOf : List (Nat × Int) → Int → List (Nat × Nat))
    (g : Int) (epoch : Nat) (vehicles : List (Nat × List (Nat × Int)))
    (stops : List (String × Int)) (hwf : ∀ traj pos, StrictWF (visitsOf traj pos))
    (rows : List DwellRow)
    (hrows : busgps_arriveinfo visitsOf g epoch vehicles stops = some rows) :
    rows = (((nestedBlocks visitsOf g vehicles stops).flatten).flatten).map
      (stampRow epoch) := by
  unfold busgps_arriveinfo at hrows
  by_cases hne : lsGroups visitsOf g vehicles stops = []
  · rw [if_pos hne] at hrows
    exact absurd hrows (by simp)
  · rw [if_neg hne] at hrows
    rw [lsGroups_eq_nested visitsOf g vehicles stops hwf] at hrows
    rw [seqOpt_map_some] at hrows
    simpa using hrows.symm

theorem stopsIter_fst_pairwise (stops : List (String × Int)) :
    (stopsIter stops).Pairwise (fun s t => s.1 ≠ t.1) := by
  unfold stopsIter
  rw [List.pairwise_map]
  exact (pdDropDuplicates_pairwise_ne _).imp (fun h => h)

/-- C4: under well-formed visit lists and distinct vehicle ids, every
DwellEvent row of a successful `busgps_arriveinfo` run has
`arrivalTime ≤ departureTime`, and any two rows of the same (vehicle, stop)
pair are disjoint and in time order (the earlier row departs strictly before
the later row arrives). -/
theorem C4_dwell_ordering_invariant
    (visitsOf : List (Nat × Int) → Int → List (Nat × Nat)) (g : Int) (epoch : Nat)
    (vehicles : List (Nat × List (Nat × Int))) (stops : List (String × Int))
    (rows : List DwellRow)
    (hwf : ∀ traj pos, StrictWF (visitsOf traj pos))
    (hvid : (vehicles.map Prod.fst).Pairwise (fun a b => a ≠ b))
    (hrows : busgps_arriveinfo visitsOf g epoch vehicles stops = some rows) :
    (∀ r ∈ rows, r.arrive ≤ r.leave) ∧
      rows.Pairwise (fun r1 r2 => r1.vid = r2.vid → r1.stop = r2.stop →
        r1.leave < r2.arrive) := by
  have hform := arriveinfo_success_form visitsOf g epoch vehicles stops hwf rows hrows
  rw [hform]
  constructor
  · intro r hr
    rcases List.mem_map.mp hr with ⟨r0, hr0, rfl⟩
    rcases List.mem_flatten.mp hr0 with ⟨b, hb, hr0b⟩
    rcases List.mem_flatten.mp hb with ⟨L, hL, hbL⟩
    rcases List.mem_map.mp hL with ⟨v, hv, rfl⟩
    rcases List.mem_map.mp hbL with ⟨s, hs, rfl⟩
    rcases List.mem_map.mp hr0b with ⟨p, hp, rfl⟩
    have hlt := (mergeVisits_strictWF g _ (hwf v.2 s.2)).1 p hp
    show epoch + p.1 ≤ epoch + p.2
    omega
  · rw [List.pairwise_map, List.pairwise_flatten]
    constructor
    · intro b hb
      rcases List.mem_flatten.mp hb with ⟨L, hL, hbL⟩
      rcases List.mem_map.mp hL with ⟨v, hv, rfl⟩
      rcases List.mem_map.mp hbL with ⟨s, hs, rfl⟩
      unfold blockRows
      rw [List.pairwise_map]
      refine (strictWF_pairwise _ (mergeVisits_strictWF g _ (hwf v.2 s.2))).imp ?_
      intro p q hpq
      intro _ _
      show epoch + p.2 < epoch + q.1
      omega
    · rw [List.pairwise_flatten]
      constructor
      · intro L hL
        rcases List.mem_map.mp hL with ⟨v, hv, rfl⟩
        rw [List.pairwise_map]
        have hsne : (stopsNE visitsOf stops v).Pairwise (fun s t => s.1 ≠ t.1) :=
          List.Pairwise.sublist (List.filter_sublist _) (stopsIter_fst_pairwise stops)
        refine hsne.imp ?_
        intro s t hst x hx y hy
        rcases List.mem_map.mp hx with ⟨p, _, rfl⟩
        rcases List.mem_map.mp hy with ⟨q, _, rfl⟩
        intro _ hstop
        exact absurd (by simpa [stampRow] using hstop) hst
      · unfold nestedBlocks
        rw [List.pairwise_map]
        have hvv : (vehicles.filter (fun v => 1 < v.2.length)).Pairwise
            (fun v w => v.1 ≠ w.1) :=
          List.Pairwise.sublist (List.filter_sublist _) (List.pairwise_map.mp hvid)
        refine hvv.imp ?_
        intro v w hvw b1 hb1 b2 hb2 x hx y hy
        rcases List.mem_map.mp hb1 with ⟨s, _, rfl⟩
        rcases List.mem_map.mp hb2 with ⟨t, _, rfl⟩
        rcases List.mem_map.mp hx with ⟨p, _, rfl⟩
        rcases List.mem_map.mp hy with ⟨q, _, rfl⟩
        intro hvid2
        exact absurd (by simpa [stampRow] using hvid2) hvw

theorem stopsIter_singleton (nm : String) (pos : Int) :
    stopsIter [(nm, pos)] = [(nm, pos)] := by
  unfold stopsIter
  rw [show ([(nm, pos)].map Prod.fst) = [nm] from rfl]
  rw [pdDropDuplicates]
  rw [show (List.filter (fun y => decide (y ≠ nm)) ([] : List String)) = [] from rfl]
  rw [pdDropDuplicates]
  simp [firstPos]

/-- Concrete visit function used by the arrive-info witnesses. -/
def visitsW : List (Nat × Int) → Int → List (Nat × Nat) := fun _ _ => [(1, 3), (10, 20)]

/-- C4 witness: a single vehicle, a single stop, two well-formed raw visits
that merge into one dwell. -/
theorem C4_dwell_ordering_invariant_witness :
    (∀ (traj : List (Nat × Int)) (pos : Int),
        StrictWF (visitsW traj pos)) ∧
      ((([(1, [(0, 0), (5, 0)])] : List (Nat × List (Nat × Int))).map Prod.fst).Pairwise
        (fun a b => a ≠ b)) ∧
      ((∀ r ∈ [(⟨1, "S", 101, 120⟩ : DwellRow)], r.arrive ≤ r.leave) ∧
        ([(⟨1, "S", 101, 120⟩ : DwellRow)]).Pairwise
          (fun r1 r2 => r1.vid = r2.vid → r1.stop = r2.stop → r1.leave < r2.arrive)) :=
  ⟨fun _ _ => by show StrictWF [(1, 3), (10, 20)]; exact ⟨by decide, List.chain'_cons.mpr ⟨by decide, List.chain'_singleton _⟩⟩, by decide,
    C4_dwell_ordering_invariant visitsW 300 100
      [(1, [(0, 0), (5, 0)])] [("S", 0)] [⟨1, "S", 101, 120⟩]
      (fun _ _ => by show StrictWF [(1, 3), (10, 20)]; exact ⟨by decide, List.chain'_cons.mpr ⟨by decide, List.chain'_singleton _⟩⟩) (by decide)
      (by
        unfold busgps_arriveinfo lsGroups vehicleGroups
        rw [stopsIter_singleton]
        decide)⟩

theorem flatten_flatten_length_mono {α β : Type} :
    ∀ (A : List α) (f h : α → List (List β)),
      (∀ a ∈ A, ((f a).flatten).length ≤ ((h a).flatten).length) →
      (((A.map f).flatten).flatten).length ≤ (((A.map h).flatten).flatten).length
  | [], _, _, _ => Nat.le_refl _
  | a :: A, f, h, hle => by
    rw [List.map_cons, List.flatten_cons, List.flatten_append, List.length_append,
      List.map_cons, List.flatten_cons, List.flatten_append, List.length_append]
    exact Nat.add_le_add (hle a (List.mem_cons_self _ _))
      (flatten_flatten_length_mono A f h (fun a' ha' => hle a' (List.mem_cons_of_mem _ ha')))

/-- C5: for a fixed input with well-formed visits and two thresholds
`g1 < g2`, a successful run with the larger threshold produces at most as
many DwellEvent rows as a successful run with the smaller one. -/
theorem C5_merge_threshold_monotone
    (visitsOf : List (Nat × Int) → Int → List (Nat × Nat)) (g1 g2 : Int) (epoch : Nat)
    (vehicles : List (Nat × List (Nat × Int))) (stops : List (String × Int))
    (rows1 rows2 : List DwellRow)
    (hwf : ∀ traj pos, StrictWF (visitsOf traj pos))
    (hg : g1 < g2)
    (h1 : busgps_arriveinfo visitsOf g1 epoch vehicles stops = some rows1)
    (h2 : busgps_arriveinfo visitsOf g2 epoch vehicles stops = some rows2) :
    rows2.length ≤ rows1.length := by
  rw [arriveinfo_success_form visitsOf g1 epoch vehicles stops hwf rows1 h1]
  rw [arriveinfo_success_form visitsOf g2 epoch vehicles stops hwf rows2 h2]
  rw [List.length_map, List.length_map]
  unfold nestedBlocks
  refine flatten_flatten_length_mono (vehicles.filter (fun v => 1 < v.2.length)) _ _ ?_
  intro v _
  rw [List.length_flatten, List.length_flatten, List.map_map, List.map_map]
  refine List.sum_le_sum ?_
  intro s _
  show (blockRows g2 v.1 s.1 (visitsOf v.2 s.2)).length
    ≤ (blockRows g1 v.1 s.1 (visitsOf v.2 s.2)).length
  unfold blockRows
  rw [List.length_map, List.length_map]
  exact mergeVisits_length_mono g1 g2 (Int.le_of_lt hg) (visitsOf v.2 s.2)

/-- C5 witness: with threshold 5 the two raw visits stay separate (two rows);
with threshold 300 they merge (one row). -/
theorem C5_merge_threshold_monotone_witness :
    (∀ (traj : List (Nat × Int)) (pos : Int),
        StrictWF (visitsW traj pos)) ∧
      (5 : Int) < 300 ∧
      ([(⟨1, "S", 101, 120⟩ : DwellRow)]).length
        ≤ ([(⟨1, "S", 101, 103⟩ : DwellRow), ⟨1, "S", 110, 120⟩]).length :=
  ⟨fun _ _ => by show StrictWF [(1, 3), (10, 20)]; exact ⟨by decide, List.chain'_cons.mpr ⟨by decide, List.chain'_singleton _⟩⟩, by decide,
    C5_merge_threshold_monotone visitsW 5 300 100
      [(1, [(0, 0), (5, 0)])] [("S", 0)]
      [⟨1, "S", 101, 103⟩, ⟨1, "S", 110, 120⟩] [⟨1, "S", 101, 120⟩]
      (fun _ _ => by show StrictWF [(1, 3), (10, 20)]; exact ⟨by decide, List.chain'_cons.mpr ⟨by decide, List.chain'_singleton _⟩⟩) (by decide)
      (by
        unfold busgps_arriveinfo lsGroups vehicleGroups
        rw [stopsIter_singleton]
        decide)
      (by
        unfold busgps_arriveinfo lsGroups vehicleGroups
        rw [stopsIter_singleton]
        decide)⟩

theorem dlGo_succ {P : Type} (projf : P → Int) (distf : P → P → Int) :
    ∀ (ps : List P) (prev : Int) (pi : P) (i : Nat) (pa pb : P) (x y : Int),
      ps.get? i = some pa → ps.get? (i + 1) = some pb →
      (dlGo projf distf prev pi ps).get? i = some x →
      (dlGo projf distf prev pi ps).get? (i + 1) = some y →
      y = dlStep projf distf x pa pb
  | [], _, _, i, _, _, _, _, hpa, _, _, _ => by simp at hpa
  | pj :: rest, prev, pi, 0, pa, pb, x, y, hpa, hpb, hx, hy => by
    have hpa' : pj = pa := by simpa using hpa
    have hx' : dlStep projf distf prev pi pj = x := by simpa [dlGo] using hx
    cases rest with
    | nil => simp at hpb
    | cons pc rest' =>
      have hpb' : pc = pb := by simpa using hpb
      have hy' : dlStep projf distf (dlStep projf distf prev pi pj) pj pc = y := by
        simpa [dlGo] using hy
      rw [← hpa', ← hpb', ← hx', ← hy']
  | pj :: rest, prev, pi, i + 1, pa, pb, x, y, hpa, hpb, hx, hy =>
    dlGo_succ projf distf rest (dlStep projf distf prev pi pj) pj i pa pb x y hpa hpb hx hy

theorem dislimitMatch_succ {P : Type} (projf : P → Int) (distf : P → P → Int) :
    ∀ (fixes : List P) (i : Nat) (pa pb : P) (x y : Int),
      fixes.get? i = some pa → fixes.get? (i + 1) = some pb →
      (dislimitMatch projf distf fixes).get? i = some x →
      (dislimitMatch projf distf fixes).get? (i + 1) = some y →
      y = dlStep projf distf x pa pb
  | [], i, _, _, _, _, hpa, _, _, _ => by simp at hpa
  | [p], i, _, _, _, _, _, hpb, _, _ => by
    rw [show (([p] : List P).get? (i + 1)) = none from by
      cases i <;> rfl] at hpb
    exact absurd hpb (by simp)
  | p0 :: p1 :: rest, 0, pa, pb, x, y, hpa, hpb, hx, hy => by
    have hpa' : p0 = pa := by simpa using hpa
    have hpb' : p1 = pb := by simpa using hpb
    have hx' : projf p0 = x := by simpa [dislimitMatch] using hx
    have hy' : dlStep projf distf (projf p0) p0 p1 = y := by
      simpa [dislimitMatch, dlGo] using hy
    rw [← hpa', ← hpb', ← hx', ← hy']
  | p0 :: p1 :: rest, i + 1, pa, pb, x, y, hpa, hpb, hx, hy =>
    dlGo_succ projf distf (p1 :: rest) (projf p0) p0 i pa pb x y hpa hpb hx hy

/-- C6: under the distance-limited matching policy, for consecutive fixes at
positions i and i+1 of a vehicle's time-ordered stream, with `d` the planar
distance between them, `p2` the nearest projection of fix i+1 and
`delta = p2 - prev` (where `prev` is the position assigned to fix i): the
position assigned to fix i+1 is `prev` when `d = 0`, is `prev + sign(delta)*d`
when `|delta| > d`, and is `p2` otherwise. -/
theorem C6_dislimit_recurrence {P : Type} (projf : P → Int) (distf : P → P → Int)
    (fixes : List P) (i : Nat) (pa pb : P) (prev next : Int)
    (hpa : fixes.get? i = some pa) (hpb : fixes.get? (i + 1) = some pb)
    (hprev : (dislimitMatch projf distf fixes).get? i = some prev)
    (hnext : (dislimitMatch projf distf fixes).get? (i + 1) = some next) :
    (distf pb pa = 0 → next = prev) ∧
      (|projf pb - prev| > distf pb pa →
        next = prev + (projf pb - prev).sign * distf pb pa) ∧
      (distf pb pa ≠ 0 → |projf pb - prev| ≤ distf pb pa → next = projf pb) := by
  have hstep : next = dlStep projf distf prev pa pb :=
    dislimitMatch_succ projf distf fixes i pa pb prev next hpa hpb hprev hnext
  refine ⟨?_, ?_, ?_⟩
  · intro hd
    rw [hstep]
    simp [dlStep, hd]
  · intro habs
    rw [hstep]
    unfold dlStep
    by_cases hd : distf pb pa = 0
    · rw [if_pos hd]
      have : (projf pb - prev).sign * distf pb pa = 0 := by
        rw [hd]
        exact mul_zero _
      omega
    · rw [if_neg hd, if_pos habs]
      omega
  · intro hd hle
    rw [hstep]
    unfold dlStep
    rw [if_neg hd, if_neg (by omega)]

/-- C6 witness: a concrete instantiation with integer points, identity
projection and absolute-difference distance. -/
theorem C6_dislimit_recurrence_witness :
    ([(0 : Int), 10, 10] : List Int).get? 1 = some 10 ∧
      ([(0 : Int), 10, 10] : List Int).get? 2 = some 10 ∧
      (dislimitMatch (fun p : Int => p) (fun a b => |a - b|) [0, 10, 10]).get? 1 = some 10 ∧
      (dislimitMatch (fun p : Int => p) (fun a b => |a - b|) [0, 10, 10]).get? 2 = some 10 ∧
      ((|(10 : Int) - 10| = 0 → (10 : Int) = 10) ∧
        (|(10 : Int) - 10| > |(10 : Int) - 10| →
          (10 : Int) = 10 + ((10 : Int) - 10).sign * |(10 : Int) - 10|) ∧
        (|(10 : Int) - 10| ≠ 0 → |(10 : Int) - 10| ≤ |(10 : Int) - 10| → (10 : Int) = 10)) :=
  ⟨by decide, by decide, by decide, by decide,
    C6_dislimit_recurrence (fun p : Int => p) (fun a b => |a - b|) [0, 10, 10] 1 10 10 10 10
      (by decide) (by decide) (by decide) (by decide)⟩
